import Mathlib

/-!
Shallow embedding of `src/shampoo/model/lorenzmie.py` (Lorenz-Mie hologram
synthesis) and proofs about it.

Modelling conventions:

* The source computes with `numpy.complex128` / `numpy.float64`.  We idealize
  machine floats as exact arithmetic: real scalars become `ℚ` (or `ℝ` where a
  cube root is needed, namely `Nstop`), and complex scalars become `CQ`, a
  computable copy of ℚ[i] defined below, so that every recurrence of the
  source is an executable Lean function.
* Transcendental primitives (`np.pi`, `np.sin`, `np.cos`, `np.exp`,
  `np.sqrt`, `np.arctan2`) have no exact rational counterpart; they are
  collected in a `Prims` record of abstract functions and every theorem is
  proved for an arbitrary record, hence in particular for the real ones.
* `Nstop`, whose piecewise formula uses the real cube root, is embedded over
  `ℝ`/`ℂ` directly, mirroring the source line by line.
-/

/-- Computable copy of the Gaussian rationals ℚ[i]: the exact idealization of
the `numpy.complex128` scalars used throughout `lorenzmie.py`. -/
@[ext] structure CQ where
  re : ℚ
  im : ℚ
deriving DecidableEq

namespace CQ

/-- `dcomplex(a, b)` of the source: build a complex number from parts. -/
def ofQ (a : ℚ) : CQ := ⟨a, 0⟩

instance : Zero CQ := ⟨⟨0, 0⟩⟩
instance : One CQ := ⟨⟨1, 0⟩⟩
instance : Add CQ := ⟨fun a b => ⟨a.re + b.re, a.im + b.im⟩⟩
instance : Neg CQ := ⟨fun a => ⟨-a.re, -a.im⟩⟩
instance : Mul CQ := ⟨fun a b => ⟨a.re * b.re - a.im * b.im, a.re * b.im + a.im * b.re⟩⟩

/-- `ci = dcomplex(0, 1)` of the source: the imaginary unit. -/
def I : CQ := ⟨0, 1⟩

/-- Squared modulus, used to define exact complex division. -/
def normSq (a : CQ) : ℚ := a.re * a.re + a.im * a.im

instance : Inv CQ := ⟨fun a => ⟨a.re / normSq a, -a.im / normSq a⟩⟩

theorem zero_re : (0 : CQ).re = 0 := rfl
theorem zero_im : (0 : CQ).im = 0 := rfl
theorem one_re : (1 : CQ).re = 1 := rfl
theorem one_im : (1 : CQ).im = 0 := rfl
theorem add_re (a b : CQ) : (a + b).re = a.re + b.re := rfl
theorem add_im (a b : CQ) : (a + b).im = a.im + b.im := rfl
theorem neg_re (a : CQ) : (-a).re = -a.re := rfl
theorem neg_im (a : CQ) : (-a).im = -a.im := rfl
theorem mul_re (a b : CQ) : (a * b).re = a.re * b.re - a.im * b.im := rfl
theorem mul_im (a b : CQ) : (a * b).im = a.re * b.im + a.im * b.re := rfl
theorem inv_re (a : CQ) : (a⁻¹).re = a.re / normSq a := rfl
theorem inv_im (a : CQ) : (a⁻¹).im = -a.im / normSq a := rfl

instance addCommGroup : AddCommGroup CQ where
  add := (· + ·)
  zero := 0
  neg := Neg.neg
  nsmul := nsmulRec
  zsmul := zsmulRec
  add_assoc a b c := by ext <;> (show _ = _; simp [add_re, add_im]; ring)
  zero_add a := by ext <;> (show (0 : ℚ) + _ = _; simp)
  add_zero a := by ext <;> (show _ + (0 : ℚ) = _; simp)
  add_comm a b := by ext <;> (show _ = _; simp [add_re, add_im]; ring)
  neg_add_cancel a := by ext <;> (show -_ + _ = (0 : ℚ); ring)

instance commRing : CommRing CQ where
  __ := CQ.addCommGroup
  one := 1
  mul := (· * ·)
  natCast n := ⟨n, 0⟩
  intCast n := ⟨n, 0⟩
  natCast_zero := by ext <;> rfl
  natCast_succ n := by ext <;> (show _ = _ + _ <;> simp [add_re, add_im, one_re, one_im])
  intCast_ofNat n := by ext <;> rfl
  intCast_negSucc n := by
    ext
    · show ((Int.negSucc n : ℤ) : ℚ) = -(((n + 1 : ℕ) : ℚ))
      push_cast [Int.negSucc_eq]
      ring
    · show (0 : ℚ) = -(0 : ℚ)
      simp
  mul_assoc a b c := by ext <;> (show _ = _; simp [mul_re, mul_im]; ring)
  one_mul a := by ext <;> (show _ = _; simp [mul_re, mul_im, one_re, one_im])
  mul_one a := by ext <;> (show _ = _; simp [mul_re, mul_im, one_re, one_im])
  left_distrib a b c := by
    ext <;> (show _ = _; simp [mul_re, mul_im, add_re, add_im]; ring)
  right_distrib a b c := by
    ext <;> (show _ = _; simp [mul_re, mul_im, add_re, add_im]; ring)
  zero_mul a := by ext <;> (show _ = _ <;> simp [mul_re, mul_im, zero_re, zero_im])
  mul_zero a := by ext <;> (show _ = _ <;> simp [mul_re, mul_im, zero_re, zero_im])
  mul_comm a b := by ext <;> (show _ = _; simp [mul_re, mul_im]; ring)

theorem natCast_re (n : ℕ) : (n : CQ).re = n := rfl
theorem natCast_im (n : ℕ) : (n : CQ).im = 0 := rfl

theorem normSq_eq_zero_iff (a : CQ) : normSq a = 0 ↔ a = 0 := by
  constructor
  · intro h
    have h1 : a.re * a.re + a.im * a.im = 0 := h
    have hre : a.re = 0 := by nlinarith [mul_self_nonneg a.re, mul_self_nonneg a.im]
    have him : a.im = 0 := by nlinarith [mul_self_nonneg a.re, mul_self_nonneg a.im]
    ext <;> simp [hre, him, zero_re, zero_im]
  · intro h; subst h; simp [normSq, zero_re, zero_im]

instance field : Field CQ where
  inv := Inv.inv
  exists_pair_ne := ⟨0, 1, by decide⟩
  nnqsmul := _
  qsmul := _
  mul_inv_cancel a h := by
    have hn : normSq a ≠ 0 := fun hz => h ((normSq_eq_zero_iff a).mp hz)
    ext
    · show a.re * (a.re / normSq a) - a.im * (-a.im / normSq a) = 1
      have step : a.re * (a.re / normSq a) - a.im * (-a.im / normSq a)
          = (a.re * a.re + a.im * a.im) / normSq a := by ring
      rw [step]
      exact div_self hn
    · show a.re * (-a.im / normSq a) + a.im * (a.re / normSq a) = 0
      ring
  inv_zero := by
    ext
    · show (0 : ℚ) / normSq 0 = (0 : ℚ)
      simp
    · show -(0 : ℚ) / normSq 0 = (0 : ℚ)
      simp

/-- `np.conj` on our complex scalars. -/
def conj (a : CQ) : CQ := ⟨a.re, -a.im⟩

theorem mul_conj_re (a : CQ) : (a * conj a).re = a.re * a.re + a.im * a.im := by
  simp only [mul_re, conj]
  ring

theorem mul_conj_re_nonneg (a : CQ) : 0 ≤ (a * conj a).re := by
  rw [mul_conj_re]
  nlinarith [mul_self_nonneg a.re, mul_self_nonneg a.im]

end CQ

/-- Abstract transcendental primitives of the source (`np.pi`, `np.sqrt`,
`np.arctan2`, `np.sin`, `np.cos`, `np.exp` on reals, and `np.exp`/`np.sin`
on complex arguments).  Their values are irrational in general, so the
embedding is parameterized by an arbitrary such record; every theorem below
holds for all of them, in particular for the true real-analytic ones. -/
structure Prims where
  pi : ℚ
  sqrtq : ℚ → ℚ
  atan2q : ℚ → ℚ → ℚ
  sinq : ℚ → ℚ
  cosq : ℚ → ℚ
  expq : ℚ → ℚ
  cexp : CQ → CQ
  csin : CQ → CQ

/-- Piecewise Wiscombe estimate `ns` from `Nstop` (lines 416-422 of the
source).  `np.floor` returns a float, so the branch value is the real number
obtained by casting the floor back to the reals.  The final `else 0` branch
is unreachable: `4200 ≤ x` implies `4199 < x` (the source would raise
`NameError` were it reachable). -/
noncomputable def NstopNs (x : ℝ) : ℝ :=
  if x < 8 then ((⌊x + 4 * x ^ ((1 : ℝ) / 3) + 1⌋ : ℤ) : ℝ)
  else if x < 4200 then ((⌊x + 4.05 * x ^ ((1 : ℝ) / 3) + 2⌋ : ℤ) : ℝ)
  else if 4199 < x then ((⌊x + 4 * x ^ ((1 : ℝ) / 3) + 2⌋ : ℤ) : ℝ)
  else 0

/-- `Nstop(x, m)` of the source (lines 410-426): number of terms kept in the
partial-wave expansion, `int(np.floor(np.max([ns, abs(x*m)])) + 15)`.
The value is a nonnegative count in the valid domain, where `int()`
truncation agrees with the floor. -/
noncomputable def Nstop (x : ℝ) (m : ℂ) : ℤ :=
  ⌊max (NstopNs x) (Complex.abs ((x : ℂ) * m))⌋ + 15

/-- `shift(a, steps)` of the source (lines 429-442), the replacement for
`np.roll` on a 1D complex array of length `len_a`.  Arrays are modelled as
total functions that are zero outside their index range, so the result is 0
at indices `≥ len_a` (the zeros of `np.zeros_like`). -/
def shift (len_a : ℕ) (a : ℕ → CQ) (steps : ℕ) : ℕ → CQ := fun i =>
  if i < len_a then
    if steps ≤ i then a (i - steps)
    else a (i + (len_a - steps))
  else 0

/-- Downward logarithmic-derivative recurrence used for `D1_a` and `D1` in
`sphere_coefficients`.  `D1at z k g` is the value stored at array index `k`
when the first index the downward loop never writes lies `g` slots above
`k`: for `g = 0` the zero initialization of `dcomplexarr` is untouched, and
one recurrence step `D1[n-1] = n/z - 1/(D1[n] + n/z)` (lines 485 and 498)
links consecutive slots. -/
def D1at (z : CQ) : ℕ → ℕ → CQ
  | _, 0 => 0
  | k, g + 1 =>
      ((k + 1 : ℕ) : CQ) / z - 1 / (D1at z (k + 1) g + ((k + 1 : ℕ) : CQ) / z)

/-- Entry `idx` of a downward-recurrence array whose loop runs over orders
`n = top, ..., 1` (writing indices `top - 1, ..., 0`); indices `top` and
above keep their zero initialization.  For the inside-sphere array `D1_a`
of the source, `top = nmax` (the loop is `range(1, nmax + 1)` reversed);
for the medium array `D1`, `top = nmax - 1` (the loop is `range(1, nmax)`
reversed). -/
def D1arr (z : CQ) (top idx : ℕ) : CQ := D1at z idx (top - idx)


/-- Joint state of the upward recurrence of `sphere_coefficients` lines
501-509: the values `Psi[n]`, `Zeta[n]`, `PsiZeta[n]`, `D3[n]`. -/
structure PZState where
  Psi : CQ
  Zeta : CQ
  PsiZeta : CQ
  D3 : CQ

/-- The upward recurrence Eqs. (18a)/(18b) of `sphere_coefficients`:
seeds `Psi[0] = sin z`, `Zeta[0] = -i exp(i z)`,
`PsiZeta[0] = (1 - exp(2 i z))/2`, `D3[0] = i` (lines 501-504) and the step
`Psi[n] = Psi[n-1] (n/z - D1[n-1])`, `Zeta[n] = Zeta[n-1] (n/z - D3[n-1])`,
`PsiZeta[n] = PsiZeta[n-1] (n/z - D1[n-1]) (n/z - D3[n-1])`,
`D3[n] = D1[n] + i/PsiZeta[n]` (lines 505-509). -/
def pzRec (P : Prims) (z : CQ) (D1 : ℕ → CQ) : ℕ → PZState
  | 0 =>
      ⟨P.csin z, -CQ.I * P.cexp (CQ.I * z),
        CQ.ofQ (1 / 2) * (1 - P.cexp (2 * CQ.I * z)), CQ.I⟩
  | n + 1 =>
      let prev := pzRec P z D1 n
      let t1 := ((n + 1 : ℕ) : CQ) / z - D1 n
      let t3 := ((n + 1 : ℕ) : CQ) / z - prev.D3
      let psz := prev.PsiZeta * t1 * t3
      ⟨prev.Psi * t1, prev.Zeta * t3, psz, D1 (n + 1) + CQ.I / psz⟩

/-- Entry `n` of the `Psi` array of `sphere_coefficients`: the array has
size `nmax + 1`; index 0 is seeded unconditionally (line 501) and the loop
writes indices `1, ..., nmax - 1` (range(1, nmax)); index `nmax`, written by
neither, keeps its zero initialization. -/
def PsiArr (P : Prims) (z : CQ) (D1 : ℕ → CQ) (nmax n : ℕ) : CQ :=
  if n = 0 ∨ n < nmax then (pzRec P z D1 n).Psi else 0

/-- Entry `n` of the `Zeta` array of `sphere_coefficients`; same index
layout as `PsiArr`. -/
def ZetaArr (P : Prims) (z : CQ) (D1 : ℕ → CQ) (nmax n : ℕ) : CQ :=
  if n = 0 ∨ n < nmax then (pzRec P z D1 n).Zeta else 0

/-- `sphere_coefficients(ap, n_sphere, nm, lambda_)` of the source (lines
445-525), as the pair of coefficient arrays `(a, b)` (rows `ab[0]`,
`ab[1]`, both of size `nmax + 1`, modelled as total functions).

The term count `nmax` is passed as a parameter: in the source it is
`Nstop(x, m)`, whose real cube root has no rational counterpart; `Nstop`
is embedded separately over `ℝ` and every theorem below holds for every
value of `nmax`.  The values `PsiZeta_a[0,0] = (1 - exp(2 i x m))/2` and
`D3_a[0,0] = i` of lines 487-489 are computed by the source but never read
afterwards (only `D1_a` flows into `Ha`/`Hb`), so they are omitted.  The
single-layer index `[0, ...]` of `D1_a`, `Ha`, `Hb` is dropped
(`nlayers = 1`). -/
def sphere_coefficients (P : Prims) (nmax : ℕ) (ap : ℚ) (n_sphere nm : CQ)
    (lam : ℚ) : (ℕ → CQ) × (ℕ → CQ) :=
  let x : ℚ := 2 * P.pi * nm.re * ap / lam
  let m : CQ := n_sphere / nm
  let z1 : CQ := CQ.ofQ x * m
  let D1a : ℕ → CQ := D1arr z1 nmax
  let Ha : ℕ → CQ := D1a
  let Hb : ℕ → CQ := D1a
  let z2 : CQ := CQ.ofQ x
  let D1 : ℕ → CQ := D1arr z2 (nmax - 1)
  let Psi : ℕ → CQ := PsiArr P z2 D1 nmax
  let Zeta : ℕ → CQ := ZetaArr P z2 D1 nmax
  let shift_Psi : ℕ → CQ := shift (nmax + 1) Psi 1
  let shift_Zeta : ℕ → CQ := shift (nmax + 1) Zeta 1
  let a_raw : ℕ → CQ := fun n =>
    ((Ha n / m + CQ.ofQ ((n : ℚ) / x)) * Psi n - shift_Psi n) /
      ((Ha n / m + CQ.ofQ ((n : ℚ) / x)) * Zeta n - shift_Zeta n)
  let b_raw : ℕ → CQ := fun n =>
    ((Hb n * m + CQ.ofQ ((n : ℚ) / x)) * Psi n - shift_Psi n) /
      ((Hb n * m + CQ.ofQ ((n : ℚ) / x)) * Zeta n - shift_Zeta n)
  (fun n => if n = 0 then 0 else a_raw n,
    fun n => if n = 0 then 0 else b_raw n)

/-- Cartesian (or spherical) triple of complex field components at one
grid point: row `[0]`, `[1]`, `[2]` of the `(3, npts)` arrays of the
source. -/
structure Vec3 where
  e0 : CQ
  e1 : CQ
  e2 : CQ

/-- Per-point loop state of `sphericalfield` (lines 354-388): the
accumulated scattered field `Es` and the sliding recurrence values
`pi_nm1`, `pi_n` (real) and `xi_nm2`, `xi_nm1` (complex). -/
structure SFState where
  Es : Vec3
  pi_nm1 : ℚ
  pi_n : ℚ
  xi_nm2 : CQ
  xi_nm1 : CQ

/-- One iteration of the multipole loop of `sphericalfield` (lines
354-388) at order `n`, for a single grid point with angular value
`costheta` and reduced radial coordinate `kr`. -/
def sfStep (a b : ℕ → CQ) (costheta kr : ℚ) (st : SFState) (n : ℕ) : SFState :=
  let swisc := st.pi_n * costheta
  let twisc := swisc - st.pi_nm1
  let tau_n := st.pi_nm1 - (n : ℚ) * twisc
  let xi_n := CQ.ofQ (2 * (n : ℚ) - 1) * st.xi_nm1 / CQ.ofQ kr - st.xi_nm2
  let Mo1n : Vec3 := ⟨0, CQ.ofQ st.pi_n * xi_n, CQ.ofQ tau_n * xi_n⟩
  let dn := ((n : ℕ) : CQ) * xi_n / CQ.ofQ kr - st.xi_nm1
  let Ne1n : Vec3 :=
    ⟨((n * (n + 1) : ℕ) : CQ) * CQ.ofQ st.pi_n * xi_n,
      CQ.ofQ tau_n * dn, CQ.ofQ st.pi_n * dn⟩
  let En := CQ.I ^ n * ((2 * n + 1 : ℕ) : CQ) / ((n : ℕ) : CQ) / ((n + 1 : ℕ) : CQ)
  let cA := En * CQ.I * a n
  let cB := En * b n
  let Es : Vec3 :=
    ⟨st.Es.e0 + (cA * Ne1n.e0 - cB * Mo1n.e0),
      st.Es.e1 + (cA * Ne1n.e1 - cB * Mo1n.e1),
      st.Es.e2 + (cA * Ne1n.e2 - cB * Mo1n.e2)⟩
  ⟨Es, st.pi_n, swisc + (((n : ℚ) + 1) / (n : ℚ)) * twisc, st.xi_nm1, xi_n⟩

/-- Orders visited by the multipole sum of `sphericalfield`:
`range(1, nc)` with `nc = ncoef - 1` for a coefficient array of size
`ncoef` (line 313: `nc = ab[0, :].shape[0] - 1`; line 354). -/
def sfOrders (ncoef : ℕ) : List ℕ := List.range' 1 (ncoef - 1 - 1)

/-- Initial per-point state of `sphericalfield` (lines 336-351):
`xi_{-2} = cos kr + i sin kr`, `xi_{-1} = sin kr - i cos kr`, angular
seeds `pi_0 = 0`, `pi_1 = 1`, and zero accumulated field. -/
def sfInit (P : Prims) (kr : ℚ) : SFState :=
  ⟨⟨0, 0, 0⟩, 0, 1, ⟨P.cosq kr, P.sinq kr⟩, ⟨P.sinq kr, -(P.cosq kr)⟩⟩

/-- Postlude of `sphericalfield` (lines 390-407): reinstate the geometric
prefactors divided out of the vector spherical harmonics, then project the
spherical components onto Cartesian axes. -/
def sfFinish (costheta sintheta cosphi sinphi kr : ℚ) (st : SFState) : Vec3 :=
  let Es0 := st.Es.e0 * CQ.ofQ (cosphi * sintheta / kr ^ 2)
  let Es1 := st.Es.e1 * CQ.ofQ (cosphi / kr)
  let Es2 := st.Es.e2 * CQ.ofQ (sinphi / kr)
  ⟨Es0 * CQ.ofQ sintheta * CQ.ofQ cosphi + Es1 * CQ.ofQ costheta * CQ.ofQ cosphi
      - Es2 * CQ.ofQ sinphi,
    Es0 * CQ.ofQ sintheta * CQ.ofQ sinphi + Es1 * CQ.ofQ costheta * CQ.ofQ sinphi
      + Es2 * CQ.ofQ cosphi,
    Es0 * CQ.ofQ costheta - Es1 * CQ.ofQ sintheta⟩

/-- Body of `sphericalfield` for one grid point once the angular values and
`kr` are known; the fold is the loop `for n in range(1, nc)`. -/
def sfAssemble (P : Prims) (ncoef : ℕ) (a b : ℕ → CQ)
    (costheta sintheta cosphi sinphi kr : ℚ) : Vec3 :=
  sfFinish costheta sintheta cosphi sinphi kr
    (List.foldl (sfStep a b costheta kr) (sfInit P kr) (sfOrders ncoef))

/-- `sphericalfield(x, y, z, ab, lambda_)` of the source (lines 295-407)
evaluated at one grid point `(x, y)` with plane distance `z`: spherical
coordinates `rho = sqrt(x^2+y^2)`, `r = sqrt(rho^2+z^2)`,
`theta = arctan2(rho, z)`, `phi = arctan2(y, x)`, wavenumber
`k = 2 pi / lambda_`, reduced radial coordinate `kr = k r`, then the
multipole sum.  `ncoef` is the size of the coefficient arrays. -/
def sphericalfield (P : Prims) (ncoef : ℕ) (a b : ℕ → CQ)
    (x y z lam : ℚ) : Vec3 :=
  sfAssemble P ncoef a b
    (P.cosq (P.atan2q (P.sqrtq (x ^ 2 + y ^ 2)) z))
    (P.sinq (P.atan2q (P.sqrtq (x ^ 2 + y ^ 2)) z))
    (P.cosq (P.atan2q y x))
    (P.sinq (P.atan2q y x))
    (2 * P.pi / lam * P.sqrtq ((P.sqrtq (x ^ 2 + y ^ 2)) ^ 2 + z ^ 2))

/-- `spherefield(x, y, z, a, n_sphere, nm, lambda_, mpp)` of the source
(lines 269-292) at one grid point: scattering coefficients, medium
wavelength in pixels `lambda_m = lambda_ / nm.real / mpp`, then the field
evaluator.  The coefficient arrays have size `nmax + 1`. -/
def spherefield (P : Prims) (nmax : ℕ) (x y z : ℚ) (ap : ℚ)
    (n_sphere nm : CQ) (lam mpp : ℚ) : Vec3 :=
  let ab := sphere_coefficients P nmax ap n_sphere nm lam
  sphericalfield P (nmax + 1) ab.1 ab.2 x y z (lam / nm.re / mpp)


/-- The x pixel coordinate of flattened grid point `p` in
`lorenz_mie_field_spherical`: the grids `x, y = meshgrid(arange(nx) - rp[0],
arange(ny) - rp[1])` have shape `(ny, nx)` with `x[r, c] = c - rp[0]`, and
`sphericalfield` ravels them in row-major order, so point `p` has column
`p % nx`. -/
def lorenz_xcoord (rp0 : ℚ) (nx : ℕ) (p : ℕ) : ℚ := ((p % nx : ℕ) : ℚ) - rp0

/-- The y pixel coordinate of flattened grid point `p`: row `p / nx` of the
meshgrid, shifted by `rp[1]`. -/
def lorenz_ycoord (rp1 : ℚ) (nx : ℕ) (p : ℕ) : ℚ := ((p / nx : ℕ) : ℚ) - rp1

/-- The scalar `alpha * np.exp(-k * (zp + delta) * 1j)` of line 138 of
`lorenz_mie_field_spherical`, with `k = 2 pi / lambda_m` and
`lambda_m = lambda_ / nm.real / mpp` (lines 135-136). -/
def incidentScale (P : Prims) (nm : CQ) (lam mpp zp alpha delta : ℚ) : CQ :=
  CQ.ofQ alpha * P.cexp ⟨0, -(2 * P.pi / (lam / nm.re / mpp) * (zp + delta))⟩

/-- The field of line 138 of the source at flattened point `p`: the
scattered field scaled by `alpha` and the depth-dependent phase, before
the incident wave is added. -/
def scatteredScaled (P : Prims) (nmax : ℕ) (rp0 rp1 zp ap : ℚ)
    (n_sphere nm : CQ) (lam mpp : ℚ) (nx : ℕ) (alpha delta : ℚ)
    (p : ℕ) : Vec3 :=
  let s := incidentScale P nm lam mpp zp alpha delta
  let E := spherefield P nmax (lorenz_xcoord rp0 nx p) (lorenz_ycoord rp1 nx p)
    zp ap n_sphere nm lam mpp
  ⟨s * E.e0, s * E.e1, s * E.e2⟩

/-- The field after line 139 (`field[0, :] += 1.`): the unit incident plane
wave is added to component 0 only. -/
def fieldWithIncident (P : Prims) (nmax : ℕ) (rp0 rp1 zp ap : ℚ)
    (n_sphere nm : CQ) (lam mpp : ℚ) (nx : ℕ) (alpha delta : ℚ)
    (p : ℕ) : Vec3 :=
  let E := scatteredScaled P nmax rp0 rp1 zp ap n_sphere nm lam mpp nx alpha delta p
  ⟨E.e0 + 1, E.e1, E.e2⟩

/-- `lorenz_mie_field_spherical(...)` of the source (lines 92-140) at
flattened point `p`: the return value `field * np.conj(field)`,
componentwise. -/
def lorenz_mie_field_spherical (P : Prims) (nmax : ℕ) (rp0 rp1 zp ap : ℚ)
    (n_sphere nm : CQ) (lam mpp : ℚ) (nx : ℕ) (alpha delta : ℚ)
    (p : ℕ) : Vec3 :=
  let F := fieldWithIncident P nmax rp0 rp1 zp ap n_sphere nm lam mpp nx alpha delta p
  ⟨F.e0 * CQ.conj F.e0, F.e1 * CQ.conj F.e1, F.e2 * CQ.conj F.e2⟩

/-- `lorenz_mie_field_cartesian(...)` of the source (lines 143-178): pixel
`(i, j)` of the returned `(nx, ny)` image, `a.reshape((nx, ny))` of the sum
`a = np.sum(field.real, 0)` over the three components, so pixel `(i, j)`
is flattened point `i * ny + j`. -/
def lorenz_mie_field_cartesian (P : Prims) (nmax : ℕ) (rp0 rp1 zp ap : ℚ)
    (n_sphere nm : CQ) (lam mpp : ℚ) (nx ny : ℕ) (alpha delta : ℚ)
    (i j : ℕ) : ℚ :=
  let F := lorenz_mie_field_spherical P nmax rp0 rp1 zp ap n_sphere nm lam mpp
    nx alpha delta (i * ny + j)
  F.e0.re + F.e1.re + F.e2.re

/-- A 1D real numpy array: a length and a total entry function (entries
beyond the length are irrelevant to the semantics and left unconstrained
by the constructors used here). -/
structure Vec where
  len : ℕ
  entry : ℕ → ℚ

/-- A 2D real numpy array: shape `(rows, cols)` plus a total entry
function. -/
structure Mat where
  rows : ℕ
  cols : ℕ
  entry : ℕ → ℕ → ℚ

/-- `np.arange(n) - c`, the coordinate ranges of the source. -/
def arangeSub (n : ℕ) (c : ℚ) : Vec := ⟨n, fun i => (i : ℚ) - c⟩

/-- `meshgrid(xrange, yrange)` of the source (lines 75-89): both outputs
have shape `(yrange.len, xrange.len)`; the first repeats `xrange` along
each row, the second repeats `yrange` down each column. -/
def meshgrid (xrange yrange : Vec) : Mat × Mat :=
  (⟨yrange.len, xrange.len, fun _ j => xrange.entry j⟩,
    ⟨yrange.len, xrange.len, fun i _ => yrange.entry i⟩)

/-- Row-major flattening of the in-range entries of a matrix, used to take
`np.median` of a 2D array. -/
def Mat.toList (A : Mat) : List ℚ :=
  ((List.range A.rows).map (fun i => (List.range A.cols).map (fun j => A.entry i j))).flatten

/-- `np.median` of a 1D sequence: middle element of the sorted data for odd
length, mean of the two middle elements for even length. -/
def npmedian (xs : List ℚ) : ℚ :=
  let s := List.insertionSort (· ≤ ·) xs
  if s.length % 2 = 1 then s.getD (s.length / 2) 0
  else (s.getD (s.length / 2 - 1) 0 + s.getD (s.length / 2) 0) / 2

/-- Elementwise combination of two 2D arrays of identical shape (the
in-place numpy broadcast `A *= B` succeeds for the shapes arising in
`suppress_hologram` exactly when the shapes coincide). -/
def ewCombine (f : ℚ → ℚ → ℚ) (A B : Mat) : Option Mat :=
  if A.rows = B.rows ∧ A.cols = B.cols then
    some ⟨A.rows, A.cols, fun i j => f (A.entry i j) (B.entry i j)⟩
  else none

/-- `suppress_hologram(rp, holo, kernel_radius)` of the source (lines
201-228).  Steps: subtract `np.median(holo)`; build
`x_range = arange(holo.shape[0]) - rp[0]`,
`y_range = arange(holo.shape[1]) - rp[1]`; `x, y = meshgrid(x_range,
y_range)` (note: shape `(holo.shape[1], holo.shape[0])`);
`r = sqrt(x^2 + y^2)`; multiply in place by `exp(-r/20) + 0.05`.  The
commented-out Gaussian-kernel path (lines 224-225) is not executed, so the
`kernel_radius` argument is never read.  The final in-place multiply fails
with a numpy broadcast error when the shapes differ (any non-square
input), modelled by `none`. -/
def suppress_hologram (P : Prims) (rp0 rp1 : ℚ) (holo : Mat)
    (kernel_radius : ℚ) : Option Mat :=
  let med := npmedian holo.toList
  let suppressed : Mat := ⟨holo.rows, holo.cols, fun i j => holo.entry i j - med⟩
  let x_range := arangeSub suppressed.rows rp0
  let y_range := arangeSub suppressed.cols rp1
  let xy := meshgrid x_range y_range
  let r : Mat := ⟨xy.1.rows, xy.1.cols,
    fun i j => P.sqrtq ((xy.1.entry i j) ^ 2 + (xy.2.entry i j) ^ 2)⟩
  let env : Mat := ⟨r.rows, r.cols, fun i j => P.expq (-(r.entry i j) / 20) + 0.05⟩
  ewCombine (· * ·) suppressed env

/-- Modelled from the spec words of claim C6 and spec section 4.5: pixel
`(i, j)` (row `i`, column `j`, so the pixel sits at image position
`x = j`, `y = i`) of the suppressed hologram is
`(holo[i, j] - median(holo)) * (exp(-r/20) + 0.05)` with `r` the Euclidean
distance of that pixel from the centroid `(x0, y0)`. -/
def suppress_spec (P : Prims) (rp0 rp1 : ℚ) (holo : Mat) : Mat :=
  ⟨holo.rows, holo.cols, fun i j =>
    (holo.entry i j - npmedian holo.toList) *
      (P.expq (-(P.sqrtq (((j : ℚ) - rp0) ^ 2 + ((i : ℚ) - rp1) ^ 2)) / 20) + 0.05)⟩


/-- A concrete primitives record (arbitrary values), used only to
instantiate universally quantified theorems at a concrete input. -/
def trivPrims : Prims :=
  ⟨3, id, fun a _ => a, id, id, id, id, id⟩

/-- Modelled from the spec (section 4.1 and claim C4 wording): the piecewise
term estimate `N0` as an integer, `floor(x + 4 x^(1/3) + 1)` for `x < 8`,
`floor(x + 4.05 x^(1/3) + 2)` for `8 <= x < 4200`, and
`floor(x + 4 x^(1/3) + 2)` for `x >= 4200`. -/
noncomputable def NstopSpecN0 (x : ℝ) : ℤ :=
  if x < 8 then ⌊x + 4 * x ^ ((1 : ℝ) / 3) + 1⌋
  else if x < 4200 then ⌊x + 4.05 * x ^ ((1 : ℝ) / 3) + 2⌋
  else ⌊x + 4 * x ^ ((1 : ℝ) / 3) + 2⌋

/-- Modelled from the spec (claim C4 wording): the claimed closed form
`N = floor(max(N0, |x m|)) + 15`. -/
noncomputable def NstopSpec (x : ℝ) (m : ℂ) : ℤ :=
  ⌊max ((NstopSpecN0 x : ℤ) : ℝ) (Complex.abs ((x : ℂ) * m))⌋ + 15

theorem CQ.ofQ_re (a : ℚ) : (CQ.ofQ a).re = a := rfl

theorem CQ.ofQ_im (a : ℚ) : (CQ.ofQ a).im = 0 := rfl

theorem CQ.ofQ_zero : CQ.ofQ 0 = 0 := rfl

theorem CQ.ofQ_one : CQ.ofQ 1 = 1 := rfl

theorem CQ.sub_re (a b : CQ) : (a - b).re = a.re - b.re := by
  rw [sub_eq_add_neg, CQ.add_re, CQ.neg_re, ← sub_eq_add_neg]

theorem CQ.sub_im (a b : CQ) : (a - b).im = a.im - b.im := by
  rw [sub_eq_add_neg, CQ.add_im, CQ.neg_im, ← sub_eq_add_neg]

theorem CQ.ofQ_add (a b : ℚ) : CQ.ofQ a + CQ.ofQ b = CQ.ofQ (a + b) := by
  ext <;> simp [CQ.ofQ, CQ.add_re, CQ.add_im]

theorem CQ.ofQ_mul (a b : ℚ) : CQ.ofQ a * CQ.ofQ b = CQ.ofQ (a * b) := by
  ext <;> simp [CQ.ofQ, CQ.mul_re, CQ.mul_im]

theorem CQ.ofQ_neg (a : ℚ) : -CQ.ofQ a = CQ.ofQ (-a) := by
  ext <;> simp [CQ.ofQ, CQ.neg_re, CQ.neg_im]

theorem CQ.ofQ_sub (a b : ℚ) : CQ.ofQ a - CQ.ofQ b = CQ.ofQ (a - b) := by
  rw [sub_eq_add_neg, CQ.ofQ_neg, CQ.ofQ_add, ← sub_eq_add_neg]

theorem CQ.ofQ_inv (a : ℚ) : (CQ.ofQ a)⁻¹ = CQ.ofQ a⁻¹ := by
  ext
  · show a / CQ.normSq (CQ.ofQ a) = a⁻¹
    rcases eq_or_ne a 0 with h | h
    · simp [h, CQ.normSq, CQ.ofQ]
    · rw [show CQ.normSq (CQ.ofQ a) = a * a from by simp [CQ.normSq, CQ.ofQ]]
      rw [div_eq_mul_inv, mul_inv_rev, ← mul_assoc, mul_inv_cancel₀ h, one_mul]
  · show -(CQ.ofQ a).im / CQ.normSq (CQ.ofQ a) = (CQ.ofQ a⁻¹).im
    simp [CQ.ofQ]

theorem CQ.ofQ_div (a b : ℚ) : CQ.ofQ a / CQ.ofQ b = CQ.ofQ (a / b) := by
  rw [div_eq_mul_inv, CQ.ofQ_inv, CQ.ofQ_mul, ← div_eq_mul_inv]

theorem CQ.natCast_eq_ofQ (n : ℕ) : (n : CQ) = CQ.ofQ n := by
  ext <;> simp [CQ.natCast_re, CQ.natCast_im, CQ.ofQ]

theorem CQ.ofQ_inj (a b : ℚ) : CQ.ofQ a = CQ.ofQ b ↔ a = b :=
  ⟨fun h => by simpa [CQ.ofQ] using congrArg CQ.re h, fun h => by rw [h]⟩

theorem D1arr_top (z : CQ) (top idx : ℕ) (h : top ≤ idx) : D1arr z top idx = 0 := by
  unfold D1arr
  rw [Nat.sub_eq_zero_of_le h]
  rfl

theorem D1arr_rec (z : CQ) (top idx : ℕ) (h : idx < top) :
    D1arr z top idx
      = ((idx + 1 : ℕ) : CQ) / z
          - 1 / (D1arr z top (idx + 1) + ((idx + 1 : ℕ) : CQ) / z) := by
  unfold D1arr
  have h2 : top - idx = (top - (idx + 1)) + 1 := by omega
  rw [h2]
  rfl

/-- C5, as stated, is false: the downward loop of `sphere_coefficients` is
`range(1, nmax + 1)` reversed, so it starts at order `nmax`, not
`nmax + 1`; index `nmax` of `D1_a` keeps its zero seed and does not satisfy
the recurrence at `n = nmax + 1`.  Concretely, with `nmax = 19` (the term
count produced by `Nstop` for `x = 1/2`, `m = 2`, so `z = x m = 1`), the
claimed relation `D1[19] = 20/z - 1/(D1[20] + 20/z)` fails: the left side
is 0 and the right side is `20 - 1/20`. -/
theorem claim5_counterexample :
    ¬ (D1arr 1 19 19
        = ((20 : ℕ) : CQ) / 1 - 1 / (D1arr 1 19 20 + ((20 : ℕ) : CQ) / 1)) := by
  rw [D1arr_top 1 19 19 le_rfl, D1arr_top 1 19 20 (by omega), CQ.natCast_eq_ofQ,
    div_one, zero_add, show (1 : CQ) = CQ.ofQ 1 from rfl, CQ.ofQ_div, CQ.ofQ_sub,
    show (0 : CQ) = CQ.ofQ 0 from rfl, CQ.ofQ_inj]
  norm_num

/-- C5 (corrected): the inside-sphere logarithmic derivative `D1_a` of
`sphere_coefficients` (source lines 484-485) satisfies the downward
recurrence `D1[n-1] = n/z - 1/(D1[n] + n/z)` for every order
`1 <= n <= N` (not `N + 1`: the loop starts at order `N`), with both top
entries `D1[N]` and `D1[N+1]` equal to the zero seed left by the array
initialization. -/
theorem claim5_amended (z : CQ) (nmax n : ℕ) (h1 : 1 ≤ n) (h2 : n ≤ nmax) :
    D1arr z nmax (n - 1) = (n : CQ) / z - 1 / (D1arr z nmax n + (n : CQ) / z)
      ∧ D1arr z nmax nmax = 0 ∧ D1arr z nmax (nmax + 1) = 0 := by
  refine ⟨?_, D1arr_top z nmax nmax le_rfl, D1arr_top z nmax (nmax + 1) (by omega)⟩
  have h3 : n - 1 < nmax := by omega
  have h4 : (n - 1) + 1 = n := by omega
  have h5 := D1arr_rec z nmax (n - 1) h3
  rw [h4] at h5
  exact h5

/-- Witness for `claim5_amended` at `z = 2`, `nmax = 19`, `n = 7`. -/
theorem claim5_amended_witness :
    D1arr 2 19 6 = ((7 : ℕ) : CQ) / 2 - 1 / (D1arr 2 19 7 + ((7 : ℕ) : CQ) / 2)
      ∧ D1arr 2 19 19 = 0 ∧ D1arr 2 19 20 = 0 :=
  claim5_amended 2 19 7 (by decide) (by decide)


/-- C9 (confirmed): `shift` is the circular rotation
`shift(a, s)[i] = a[(i - s) mod L]` for `0 <= s <= L` and `i < L`, and in
particular after a rotate by one slot, element 0 receives the last input
element. -/
theorem claim9_shift (L s i : ℕ) (a : ℕ → CQ) (hL : 1 ≤ L) (hs : s ≤ L)
    (hi : i < L) :
    shift L a s i = a (Int.toNat (((i : ℤ) - (s : ℤ)) % (L : ℤ)))
      ∧ shift L a 1 0 = a (L - 1) := by
  constructor
  · unfold shift
    rw [if_pos hi]
    by_cases hcase : s ≤ i
    · rw [if_pos hcase]
      have h0 : (0 : ℤ) ≤ (i : ℤ) - (s : ℤ) := by omega
      have h1 : (i : ℤ) - (s : ℤ) < (L : ℤ) := by omega
      rw [Int.emod_eq_of_lt h0 h1]
      congr 1
      omega
    · rw [if_neg hcase]
      have key : ((i : ℤ) - (s : ℤ)) % (L : ℤ) = (i : ℤ) - (s : ℤ) + (L : ℤ) := by
        have hrw : ((i : ℤ) - (s : ℤ) + (L : ℤ) * 1) % (L : ℤ)
            = ((i : ℤ) - (s : ℤ)) % (L : ℤ) :=
          @Int.add_mul_emod_self_left ((i : ℤ) - (s : ℤ)) (L : ℤ) 1
        rw [mul_one] at hrw
        rw [← hrw]
        have h0 : (0 : ℤ) ≤ (i : ℤ) - (s : ℤ) + (L : ℤ) := by omega
        have h1 : (i : ℤ) - (s : ℤ) + (L : ℤ) < (L : ℤ) := by omega
        exact Int.emod_eq_of_lt h0 h1
      rw [key]
      congr 1
      omega
  · unfold shift
    rw [if_pos (show 0 < L by omega), if_neg (show ¬ 1 ≤ 0 by omega)]
    norm_num

/-- Witness for `claim9_shift` at `L = 3`, `s = 1`, `i = 0`. -/
theorem claim9_shift_witness :
    shift 3 (fun (n : ℕ) => (⟨(n : ℚ), 0⟩ : CQ)) 1 0
        = (fun (n : ℕ) => (⟨(n : ℚ), 0⟩ : CQ)) (Int.toNat (((0 : ℤ) - (1 : ℤ)) % (3 : ℤ)))
      ∧ shift 3 (fun (n : ℕ) => (⟨(n : ℚ), 0⟩ : CQ)) 1 0
        = (fun (n : ℕ) => (⟨(n : ℚ), 0⟩ : CQ)) (3 - 1) := by
  exact claim9_shift 3 1 0 (fun (n : ℕ) => (⟨(n : ℚ), 0⟩ : CQ)) (by omega) (by omega) (by omega)

theorem sfStep_congr (a b a' b' : ℕ → CQ) (costheta kr : ℚ) (st : SFState)
    (n : ℕ) (ha : a n = a' n) (hb : b n = b' n) :
    sfStep a b costheta kr st n = sfStep a' b' costheta kr st n := by
  simp only [sfStep, ha, hb]

theorem sfFold_congr (a b a' b' : ℕ → CQ) (costheta kr : ℚ)
    (ha : ∀ n, n ≠ 0 → a n = a' n) (hb : ∀ n, n ≠ 0 → b n = b' n)
    (l : List ℕ) (hl : ∀ n ∈ l, n ≠ 0) (st : SFState) :
    List.foldl (sfStep a b costheta kr) st l
      = List.foldl (sfStep a' b' costheta kr) st l := by
  induction l generalizing st with
  | nil => rfl
  | cons n t ih =>
      have hn : n ≠ 0 := hl n (List.mem_cons_self n t)
      rw [List.foldl_cons, List.foldl_cons,
        sfStep_congr a b a' b' costheta kr st n (ha n hn) (hb n hn)]
      exact ih (fun m hm => hl m (List.mem_cons_of_mem n hm)) _

theorem sfOrders_pos (ncoef : ℕ) : ∀ n ∈ sfOrders ncoef, n ≠ 0 := by
  intro n hn
  have := List.mem_range'_1.mp hn
  omega

/-- C1 (confirmed): entry 0 of both coefficient rows of
`sphere_coefficients` is exactly the zero complex value (the final
assignment `ab[:, 0] = dcomplex(0)`), and the multipole sum of
`sphericalfield` starts at order 1 and never reads index 0 of the
coefficient arrays: its output is unchanged when the coefficients are
replaced by any others agreeing at all orders `n >= 1`. -/
theorem claim1_index_zero (P : Prims) (nmax : ℕ) (ap : ℚ) (n_sphere nm : CQ)
    (lam : ℚ) :
    (sphere_coefficients P nmax ap n_sphere nm lam).1 0 = 0
      ∧ (sphere_coefficients P nmax ap n_sphere nm lam).2 0 = 0
      ∧ ∀ (ncoef : ℕ) (a b a' b' : ℕ → CQ) (x y z lam' : ℚ),
          (∀ n, 1 ≤ n → a n = a' n) → (∀ n, 1 ≤ n → b n = b' n) →
          sphericalfield P ncoef a b x y z lam'
            = sphericalfield P ncoef a' b' x y z lam' := by
  refine ⟨rfl, rfl, ?_⟩
  intro ncoef a b a' b' x y z lam' ha hb
  unfold sphericalfield sfAssemble
  rw [sfFold_congr a b a' b' _ _
    (fun n hn => ha n (Nat.pos_of_ne_zero hn))
    (fun n hn => hb n (Nat.pos_of_ne_zero hn))
    (sfOrders ncoef) (sfOrders_pos ncoef)]

/-- Witness for `claim1_index_zero` at a concrete input. -/
theorem claim1_index_zero_witness :
    (sphere_coefficients trivPrims 19 1 1 1 1).1 0 = 0
      ∧ (sphere_coefficients trivPrims 19 1 1 1 1).2 0 = 0
      ∧ sphericalfield trivPrims 20 (fun _ => 0) (fun _ => 0) 1 2 3 4
          = sphericalfield trivPrims 20 (fun _ => 0) (fun _ => 0) 1 2 3 4 := by
  have h := claim1_index_zero trivPrims 19 1 1 1 1
  exact ⟨h.1, h.2.1,
    h.2.2 20 (fun _ => 0) (fun _ => 0) (fun _ => 0) (fun _ => 0) 1 2 3 4
      (fun _ _ => rfl) (fun _ _ => rfl)⟩


/-- C8 (confirmed): in `lorenz_mie_field_spherical` the unit incident plane
wave is added to the x-component (axis 0) only: after line 139, the y and z
components (axes 1 and 2) that enter the intensity computation are exactly
`alpha * exp(-i k (z + delta))` times the scattered-field components
returned by `spherefield`. -/
theorem claim8_incident_x_only (P : Prims) (nmax : ℕ) (rp0 rp1 zp ap : ℚ)
    (n_sphere nm : CQ) (lam mpp : ℚ) (nx : ℕ) (alpha delta : ℚ) (p : ℕ) :
    (fieldWithIncident P nmax rp0 rp1 zp ap n_sphere nm lam mpp nx alpha delta p).e1
        = incidentScale P nm lam mpp zp alpha delta
            * (spherefield P nmax (lorenz_xcoord rp0 nx p) (lorenz_ycoord rp1 nx p)
                zp ap n_sphere nm lam mpp).e1
      ∧ (fieldWithIncident P nmax rp0 rp1 zp ap n_sphere nm lam mpp nx alpha delta p).e2
        = incidentScale P nm lam mpp zp alpha delta
            * (spherefield P nmax (lorenz_xcoord rp0 nx p) (lorenz_ycoord rp1 nx p)
                zp ap n_sphere nm lam mpp).e2 :=
  ⟨rfl, rfl⟩

/-- C10 (confirmed): every entry of the image returned by
`lorenz_mie_field_cartesian` is a nonnegative rational: each pixel is the
sum over the three Cartesian components of the field times its complex
conjugate, and each such term has nonnegative real part. -/
theorem claim10_nonneg (P : Prims) (nmax : ℕ) (rp0 rp1 zp ap : ℚ)
    (n_sphere nm : CQ) (lam mpp : ℚ) (nx ny : ℕ) (alpha delta : ℚ)
    (i j : ℕ) :
    0 ≤ lorenz_mie_field_cartesian P nmax rp0 rp1 zp ap n_sphere nm lam mpp
      nx ny alpha delta i j := by
  simp only [lorenz_mie_field_cartesian, lorenz_mie_field_spherical]
  exact add_nonneg (add_nonneg (CQ.mul_conj_re_nonneg _) (CQ.mul_conj_re_nonneg _))
    (CQ.mul_conj_re_nonneg _)

/-- C2 (confirmed): with `alpha = 0` the scattered contribution vanishes
identically in exact arithmetic, the field is the unit incident wave
`(1, 0, 0)`, and every entry of the image returned by
`lorenz_mie_field_cartesian` is exactly 1. -/
theorem claim2_alpha_zero (P : Prims) (nmax : ℕ) (rp0 rp1 zp ap : ℚ)
    (n_sphere nm : CQ) (lam mpp : ℚ) (nx ny : ℕ) (alpha delta : ℚ)
    (i j : ℕ) (halpha : alpha = 0) :
    lorenz_mie_field_cartesian P nmax rp0 rp1 zp ap n_sphere nm lam mpp
      nx ny alpha delta i j = 1 := by
  subst halpha
  simp only [lorenz_mie_field_cartesian, lorenz_mie_field_spherical,
    fieldWithIncident, scatteredScaled, incidentScale, CQ.ofQ_zero, zero_mul,
    zero_add]
  norm_num [CQ.conj, CQ.mul_re, CQ.one_re, CQ.one_im, CQ.zero_re, CQ.zero_im]

/-- Witness for `claim2_alpha_zero` at a concrete input. -/
theorem claim2_alpha_zero_witness :
    lorenz_mie_field_cartesian trivPrims 16 0 0 5 1 1 1 1 1 3 3 0 0 1 1 = 1 :=
  claim2_alpha_zero trivPrims 16 0 0 5 1 1 1 1 1 3 3 0 0 1 1 rfl


/-- C7 is violated by the code: `suppress_hologram` builds its meshgrid
transposed (`meshgrid(x_range, y_range)` has shape
`(holo.shape[1], holo.shape[0])`), so for any non-square hologram the
in-place multiply `suppressed *= exp(-r/20) + 0.05` is a numpy broadcast
error instead of an image of the input's shape.  Evaluated at a concrete
2-by-3 hologram the embedded filter yields `none`. -/
theorem claim7_nonsquare_error :
    suppress_hologram trivPrims 0 0 ⟨2, 3, fun i j => ((i + j : ℕ) : ℚ)⟩ 15 = none := rfl

/-- C6, as stated for every input hologram, is false: on a non-square
input the filter raises a shape error (modelled `none`) rather than
returning the claimed pointwise formula. -/
theorem claim6_counterexample :
    suppress_hologram trivPrims 0 0 ⟨3, 2, fun i j => ((i + j : ℕ) : ℚ)⟩ 15
      ≠ some (suppress_spec trivPrims 0 0 ⟨3, 2, fun i j => ((i + j : ℕ) : ℚ)⟩) := by
  intro h
  have hnone :
      suppress_hologram trivPrims 0 0 ⟨3, 2, fun i j => ((i + j : ℕ) : ℚ)⟩ 15 = none := rfl
  rw [hnone] at h
  exact Option.noConfusion h

/-- C6 (corrected): for every square input hologram and every centroid,
`suppress_hologram` returns pointwise
`(holo - median(holo)) * (exp(-r/20) + 0.05)` with `r` the Euclidean
distance of pixel (row `i`, column `j`, at image position `x = j`,
`y = i`) from the centroid `(x0, y0)`; and the result is identical for any
two values of the unused `kernel_radius` parameter (the latter for all
inputs). -/
theorem claim6_amended (P : Prims) (rp0 rp1 : ℚ) (holo : Mat) (k1 k2 : ℚ)
    (hsq : holo.rows = holo.cols) :
    suppress_hologram P rp0 rp1 holo k1 = some (suppress_spec P rp0 rp1 holo)
      ∧ suppress_hologram P rp0 rp1 holo k1 = suppress_hologram P rp0 rp1 holo k2 := by
  refine ⟨?_, rfl⟩
  unfold suppress_hologram ewCombine arangeSub meshgrid suppress_spec
  simp only []
  rw [if_pos ⟨hsq, hsq.symm⟩]

/-- Witness for `claim6_amended` at a concrete square hologram. -/
theorem claim6_amended_witness :
    suppress_hologram trivPrims 0 0 ⟨2, 2, fun i j => ((i + j : ℕ) : ℚ)⟩ 15
        = some (suppress_spec trivPrims 0 0 ⟨2, 2, fun i j => ((i + j : ℕ) : ℚ)⟩)
      ∧ suppress_hologram trivPrims 0 0 ⟨2, 2, fun i j => ((i + j : ℕ) : ℚ)⟩ 15
        = suppress_hologram trivPrims 0 0 ⟨2, 2, fun i j => ((i + j : ℕ) : ℚ)⟩ 7 := by
  exact claim6_amended trivPrims 0 0 ⟨2, 2, fun i j => ((i + j : ℕ) : ℚ)⟩ 15 7 rfl


theorem cbrt_cube (a : ℝ) (ha : 0 ≤ a) : (a ^ (3 : ℕ)) ^ ((1 : ℝ) / 3) = a := by
  rw [← Real.rpow_natCast a 3, ← Real.rpow_mul ha]
  norm_num

theorem le_cbrt (a x : ℝ) (ha : 0 ≤ a) (h : a ^ (3 : ℕ) ≤ x) :
    a ≤ x ^ ((1 : ℝ) / 3) := by
  calc a = (a ^ (3 : ℕ)) ^ ((1 : ℝ) / 3) := (cbrt_cube a ha).symm
    _ ≤ x ^ ((1 : ℝ) / 3) := Real.rpow_le_rpow (pow_nonneg ha 3) h (by norm_num)

theorem cbrt_le (a x : ℝ) (ha : 0 ≤ a) (hx : 0 ≤ x) (h : x ≤ a ^ (3 : ℕ)) :
    x ^ ((1 : ℝ) / 3) ≤ a := by
  calc x ^ ((1 : ℝ) / 3) ≤ (a ^ (3 : ℕ)) ^ ((1 : ℝ) / 3) :=
        Real.rpow_le_rpow hx h (by norm_num)
    _ = a := cbrt_cube a ha

theorem cbrt_mono (x y : ℝ) (hx : 0 ≤ x) (h : x ≤ y) :
    x ^ ((1 : ℝ) / 3) ≤ y ^ ((1 : ℝ) / 3) :=
  Real.rpow_le_rpow hx h (by norm_num)

/-- C4 (confirmed): for positive `x` the Convergence Estimator returns
exactly `floor(max(N0, |x m|)) + 15` with the spec's piecewise `N0`, and
the result is an integer `>= 1`. -/
theorem claim4_nstop_formula (x : ℝ) (m : ℂ) (hx : 0 < x) :
    Nstop x m = NstopSpec x m ∧ 1 ≤ Nstop x m := by
  have hc : (0 : ℝ) ≤ x ^ ((1 : ℝ) / 3) := Real.rpow_nonneg (le_of_lt hx) _
  have hNs : NstopNs x = ((NstopSpecN0 x : ℤ) : ℝ) := by
    unfold NstopNs NstopSpecN0
    by_cases h1 : x < 8
    · simp [h1]
    · by_cases h2 : x < 4200
      · simp [h1, h2]
      · have h3 : (4199 : ℝ) < x := by
          have := not_lt.mp h2
          linarith
        simp [h1, h2, h3]
  have hge : (1 : ℝ) ≤ NstopNs x := by
    unfold NstopNs
    by_cases h1 : x < 8
    · rw [if_pos h1]
      have hfl : (1 : ℤ) ≤ ⌊x + 4 * x ^ ((1 : ℝ) / 3) + 1⌋ :=
        Int.le_floor.mpr (by push_cast; linarith)
      exact_mod_cast hfl
    · by_cases h2 : x < 4200
      · rw [if_neg h1, if_pos h2]
        have h8 : (8 : ℝ) ≤ x := not_lt.mp h1
        have hfl : (1 : ℤ) ≤ ⌊x + 4.05 * x ^ ((1 : ℝ) / 3) + 2⌋ :=
          Int.le_floor.mpr (by push_cast; nlinarith)
        exact_mod_cast hfl
      · have h42 : (4200 : ℝ) ≤ x := not_lt.mp h2
        have h3 : (4199 : ℝ) < x := by linarith
        rw [if_neg h1, if_neg h2, if_pos h3]
        have hfl : (1 : ℤ) ≤ ⌊x + 4 * x ^ ((1 : ℝ) / 3) + 2⌋ :=
          Int.le_floor.mpr (by push_cast; linarith)
        exact_mod_cast hfl
  constructor
  · unfold Nstop NstopSpec
    rw [hNs]
  · unfold Nstop
    have hmax : (1 : ℝ) ≤ max (NstopNs x) (Complex.abs ((x : ℂ) * m)) :=
      le_trans hge (le_max_left _ _)
    have hfl : (1 : ℤ) ≤ ⌊max (NstopNs x) (Complex.abs ((x : ℂ) * m))⌋ :=
      Int.le_floor.mpr (by exact_mod_cast hmax)
    omega

/-- Witness for `claim4_nstop_formula` at `x = 1`, `m = 0`. -/
theorem claim4_nstop_formula_witness :
    Nstop 1 0 = NstopSpec 1 0 ∧ 1 ≤ Nstop 1 0 :=
  claim4_nstop_formula 1 0 (by norm_num)


/-- C3, as stated, is false: the Wiscombe coefficient drops from 4.05 to 4
at the branch boundary `x = 4200`, so the term count decreases by one
crossing it.  Concretely, with `m = 1`: `Nstop(4199.9, 1) = 4282` but
`Nstop(4200, 1) = 4281`. -/
theorem claim3_counterexample : Nstop 4200 1 < Nstop (41999 / 10 : ℝ) 1 := by
  have hc2l : (16.13 : ℝ) ≤ (4200 : ℝ) ^ ((1 : ℝ) / 3) :=
    le_cbrt _ _ (by norm_num) (by norm_num)
  have hc2u : (4200 : ℝ) ^ ((1 : ℝ) / 3) ≤ 16.14 :=
    cbrt_le _ _ (by norm_num) (by norm_num) (by norm_num)
  have hc1l : (16.13 : ℝ) ≤ (41999 / 10 : ℝ) ^ ((1 : ℝ) / 3) :=
    le_cbrt _ _ (by norm_num) (by norm_num)
  have hc1u : (41999 / 10 : ℝ) ^ ((1 : ℝ) / 3) ≤ 16.14 :=
    cbrt_le _ _ (by norm_num) (by norm_num) (by norm_num)
  have h2 : NstopNs 4200 = ((4266 : ℤ) : ℝ) := by
    unfold NstopNs
    rw [if_neg (by norm_num), if_neg (by norm_num), if_pos (by norm_num)]
    have hfl : ⌊(4200 : ℝ) + 4 * (4200 : ℝ) ^ ((1 : ℝ) / 3) + 2⌋ = (4266 : ℤ) := by
      rw [Int.floor_eq_iff]
      constructor
      · push_cast
        linarith
      · push_cast
        linarith
    rw [hfl]
  have h1 : NstopNs (41999 / 10) = ((4267 : ℤ) : ℝ) := by
    unfold NstopNs
    rw [if_neg (by norm_num), if_pos (by norm_num)]
    have hfl : ⌊(41999 / 10 : ℝ) + 4.05 * (41999 / 10 : ℝ) ^ ((1 : ℝ) / 3) + 2⌋
        = (4267 : ℤ) := by
      rw [Int.floor_eq_iff]
      constructor
      · push_cast
        linarith
      · push_cast
        linarith
    rw [hfl]
  have habs2 : Complex.abs (((4200 : ℝ) : ℂ) * 1) = 4200 := by
    rw [mul_one, Complex.abs_ofReal]
    norm_num
  have habs1 : Complex.abs (((41999 / 10 : ℝ) : ℂ) * 1) = 41999 / 10 := by
    rw [mul_one, Complex.abs_ofReal]
    rw [abs_of_nonneg (by norm_num)]
  unfold Nstop
  rw [h2, habs2, h1, habs1]
  rw [max_eq_left (by push_cast; norm_num), max_eq_left (by push_cast; norm_num)]
  rw [Int.floor_intCast, Int.floor_intCast]
  norm_num

/-- C3 (corrected): the Convergence Estimator is monotone non-decreasing in
the size parameter for fixed `m` as long as the two arguments are not
separated by the `x = 4200` branch boundary (both below 4200, or both at or
above it); across that boundary it can decrease (see
`claim3_counterexample`). -/
theorem claim3_amended (m : ℂ) (x1 x2 : ℝ) (h0 : 0 < x1) (h12 : x1 ≤ x2)
    (hbr : x2 < 4200 ∨ 4200 ≤ x1) : Nstop x1 m ≤ Nstop x2 m := by
  have hc1 : (0 : ℝ) ≤ x1 ^ ((1 : ℝ) / 3) := Real.rpow_nonneg (le_of_lt h0) _
  have hc2 : (0 : ℝ) ≤ x2 ^ ((1 : ℝ) / 3) := Real.rpow_nonneg (by linarith) _
  have hcb : x1 ^ ((1 : ℝ) / 3) ≤ x2 ^ ((1 : ℝ) / 3) :=
    cbrt_mono x1 x2 (le_of_lt h0) h12
  have hNs : NstopNs x1 ≤ NstopNs x2 := by
    unfold NstopNs
    rcases hbr with hA | hB
    · by_cases hx1 : x1 < 8
      · by_cases hx2 : x2 < 8
        · rw [if_pos hx1, if_pos hx2]
          have hfl : ⌊x1 + 4 * x1 ^ ((1 : ℝ) / 3) + 1⌋
              ≤ ⌊x2 + 4 * x2 ^ ((1 : ℝ) / 3) + 1⌋ := Int.floor_mono (by linarith)
          exact_mod_cast hfl
        · rw [if_pos hx1, if_neg hx2, if_pos hA]
          have hfl : ⌊x1 + 4 * x1 ^ ((1 : ℝ) / 3) + 1⌋
              ≤ ⌊x2 + 4.05 * x2 ^ ((1 : ℝ) / 3) + 2⌋ := Int.floor_mono (by linarith)
          exact_mod_cast hfl
      · have hx1lt : x1 < 4200 := lt_of_le_of_lt h12 hA
        rw [if_neg hx1, if_pos hx1lt, if_neg (by linarith : ¬ x2 < 8), if_pos hA]
        have hfl : ⌊x1 + 4.05 * x1 ^ ((1 : ℝ) / 3) + 2⌋
            ≤ ⌊x2 + 4.05 * x2 ^ ((1 : ℝ) / 3) + 2⌋ := Int.floor_mono (by linarith)
        exact_mod_cast hfl
    · have hx2 : (4200 : ℝ) ≤ x2 := le_trans hB h12
      rw [if_neg (by linarith : ¬ x1 < 8), if_neg (by linarith : ¬ x1 < 4200),
        if_pos (by linarith : (4199 : ℝ) < x1), if_neg (by linarith : ¬ x2 < 8),
        if_neg (by linarith : ¬ x2 < 4200), if_pos (by linarith : (4199 : ℝ) < x2)]
      have hfl : ⌊x1 + 4 * x1 ^ ((1 : ℝ) / 3) + 2⌋
          ≤ ⌊x2 + 4 * x2 ^ ((1 : ℝ) / 3) + 2⌋ := Int.floor_mono (by linarith)
      exact_mod_cast hfl
  have habs : Complex.abs ((x1 : ℂ) * m) ≤ Complex.abs ((x2 : ℂ) * m) := by
    rw [map_mul, map_mul, Complex.abs_ofReal, Complex.abs_ofReal,
      abs_of_pos h0, abs_of_nonneg (by linarith : (0 : ℝ) ≤ x2)]
    exact mul_le_mul_of_nonneg_right h12 (AbsoluteValue.nonneg _ _)
  unfold Nstop
  have hmax := max_le_max hNs habs
  have hfl := Int.floor_mono hmax
  omega

/-- Witness for `claim3_amended` at `m = 0`, `x1 = 1`, `x2 = 2`. -/
theorem claim3_amended_witness : Nstop 1 0 ≤ Nstop 2 0 :=
  claim3_amended 0 1 2 (by norm_num) (by norm_num) (Or.inl (by norm_num))

